import Mathlib

/-!
Verification development for the `catp` snapshot tool
(`src/tools/catp/core.py` of the dotfiles repository).

The Python code is shallowly embedded: strings are lists of characters
(`List Char`), filesystem paths are lists of path components
(`List (List Char)`), and the filesystem itself is a finite tree.
Python's `fnmatch.fnmatch` glob matching is modelled by `globMatch`
(supporting literals, `*` and `?`; character-class syntax does not occur
in any pattern considered here), and `pathlib.PurePath.match` by
`pathMatch`.  All definitions are executable so concrete runs can be
settled by `decide`.
-/

/-- Characters of a string literal.  The embedding works over explicit
character lists, mirroring Python strings compared by code points. -/
def chars (s : String) : List Char := s.data

/-- Python `fnmatch.fnmatch pat s` (case-sensitive, as on POSIX where
`os.path.normcase` is the identity): `*` matches any sequence of
characters including the separator, `?` matches any single character,
every other character matches itself.  The `*` case tries every suffix
of the string, which is exactly the semantics of the greedy `.*` in the
regex `fnmatch.translate` produces.  First argument is the pattern. -/
def globMatch : List Char → List Char → Bool
  | [], s => s.isEmpty
  | p :: ps, s =>
    if p = '*' then s.tails.any (fun t => globMatch ps t)
    else if p = '?' then
      match s with
      | [] => false
      | _ :: cs => globMatch ps cs
    else
      match s with
      | [] => false
      | c :: cs => (p == c) && globMatch ps cs

/-- Whether `needle` occurs as a contiguous substring of `hay`
(Python's `in` operator on strings). -/
def hasSub (needle hay : List Char) : Bool :=
  hay.tails.any (fun t => needle.isPrefixOf t)

/-- The portable forward-slash string form of a relative path given by
its components: `PurePath.as_posix()`. -/
def pathString : List (List Char) → List Char
  | [] => []
  | [p] => p
  | p :: q :: rest => p ++ '/' :: pathString (q :: rest)

/-- Split a string on `/` (used to parse a glob pattern into components,
as `pathlib` does). -/
def splitSlash : List Char → List (List Char)
  | [] => [[]]
  | c :: cs =>
    match splitSlash cs with
    | [] => [[c]]
    | g :: gs => if c = '/' then [] :: g :: gs else (c :: g) :: gs

/-- Components of a glob pattern as `pathlib` parses them: split on the
separator, dropping empty components and `.` components. -/
def patComponents (pat : List Char) : List (List Char) :=
  (splitSlash pat).filter (fun c => !c.isEmpty && c ≠ chars ".")

/-- Python `PurePath.match` for a relative pattern: the pattern's
components must match the final components of the path, one component
per pattern component, each via `fnmatch` semantics.  An empty pattern
raises in Python; it is modelled as no match. -/
def pathMatch (parts : List (List Char)) (pat : List Char) : Bool :=
  let pp := patComponents pat
  if pp.isEmpty then false
  else if parts.length < pp.length then false
  else ((parts.drop (parts.length - pp.length)).zip pp).all
    (fun x => globMatch x.2 x.1)

/-- `matches_path` from `src/tools/catp/core.py` (lines 18-33):
a pattern containing a separator or a recursive wildcard is compared
against the whole path (both `PurePath.match` and flat `fnmatch`, a
match by either counts); any other pattern is compared against each
individual path component.  The Python pattern set is unordered, so the
list here has pure OR semantics. -/
def matches_path (parts : List (List Char)) (patterns : List (List Char)) : Bool :=
  patterns.any (fun p =>
    if p.contains '/' || hasSub (chars "**") p then
      pathMatch parts p || globMatch p (pathString parts)
    else
      parts.any (fun part => globMatch p part))

/-- `should_exclude_subtree` from `src/tools/catp/core.py` (lines 36-50):
for a pattern ending in `/**` the directory is pruned when it equals the
pattern's root or lies under it; additionally any pattern that
`fnmatch`-matches the directory path itself or the path with a trailing
slash prunes it. -/
def should_exclude_subtree (rel : List (List Char)) (patterns : List (List Char)) : Bool :=
  patterns.any (fun p =>
    (if (chars "/**").isSuffixOf p then
      (pathString rel == p.take (p.length - 3)) ||
        (p.take (p.length - 3) ++ ['/']).isPrefixOf (pathString rel)
     else false) ||
    globMatch p (pathString rel) || globMatch p (pathString rel ++ ['/']))

example : globMatch (chars "*.py") (chars "main.py") = true := by decide
example : globMatch (chars "*.py") (chars "main.pyc") = false := by decide
example : globMatch (chars "backend*") (chars "backend-base") = true := by decide
example : matches_path [chars "src", chars "main.py"] [chars "*.py"] = true := by decide
example : matches_path [chars "src", chars "main.py"] [chars "*.js"] = false := by decide
example : matches_path [chars "clients", chars "acme", chars "infra"] [chars "clients/**"] = true := by decide
example : matches_path [chars "platform", chars "catp"] [chars "clients/**"] = false := by decide
example : matches_path [chars "a", chars "b", chars "c", chars "d.py"] [chars "**/*.py"] = true := by decide
example : matches_path [chars "src", chars "node_modules", chars "pkg"] [chars "node_modules"] = true := by decide
example : should_exclude_subtree [chars "clients"] [chars "clients/**"] = true := by decide
example : should_exclude_subtree [chars "clients", chars "acme"] [chars "clients/**"] = true := by decide
example : should_exclude_subtree [chars "platform"] [chars "clients/**"] = false := by decide
example : should_exclude_subtree [chars "vendor"] [chars "vendor"] = true := by decide

/-! ### Sorting

Python's `sorted` is modelled by a stable insertion sort parameterised by
a boolean strict comparator (Python's `<`). -/

/-- Insert `x` into `l` before the first element `y` with `lt x y`,
i.e. after every element it does not strictly precede (stable). -/
def ordIns (lt : α → α → Bool) (x : α) : List α → List α
  | [] => [x]
  | y :: ys => if lt x y then x :: y :: ys else y :: ordIns lt x ys

/-- Stable insertion sort by the strict comparator `lt`. -/
def insSort (lt : α → α → Bool) : List α → List α
  | [] => []
  | x :: xs => ordIns lt x (insSort lt xs)

theorem ordIns_perm (lt : α → α → Bool) (x : α) :
    ∀ l : List α, (ordIns lt x l).Perm (x :: l) := by
  intro l
  induction l with
  | nil => simp [ordIns]
  | cons y ys ih =>
    simp only [ordIns]
    by_cases h : lt x y = true
    · simp [h]
    · simp only [h, if_false]
      exact (ih.cons y).trans (List.Perm.swap x y ys)

theorem insSort_perm (lt : α → α → Bool) :
    ∀ l : List α, (insSort lt l).Perm l := by
  intro l
  induction l with
  | nil => simp [insSort]
  | cons x xs ih =>
    exact (ordIns_perm lt x (insSort lt xs)).trans (ih.cons x)

theorem mem_insSort (lt : α → α → Bool) (l : List α) (a : α) :
    a ∈ insSort lt l ↔ a ∈ l :=
  (insSort_perm lt l).mem_iff

/-- Sortedness of `ordIns` w.r.t. the reflexive companion `fun a b => lt b a = false`,
assuming asymmetry and transitivity of `lt`. -/
theorem ordIns_pairwise (lt : α → α → Bool)
    (hasymm : ∀ a b, lt a b = true → lt b a = false)
    (htrans : ∀ a b c, lt a b = true → lt b c = true → lt a c = true)
    (x : α) : ∀ l : List α, l.Pairwise (fun a b => lt b a = false) →
      (ordIns lt x l).Pairwise (fun a b => lt b a = false) := by
  intro l
  induction l with
  | nil => intro _; simp [ordIns]
  | cons y ys ih =>
    intro hp
    rcases List.pairwise_cons.mp hp with ⟨hy, hys⟩
    simp only [ordIns]
    rcases Bool.eq_false_or_eq_true (lt x y) with h | h
    · rw [if_pos h]
      refine List.pairwise_cons.mpr ⟨?_, hp⟩
      intro z hz
      rcases List.mem_cons.mp hz with rfl | hz
      · exact hasymm x z h
      · rcases Bool.eq_false_or_eq_true (lt z x) with hzx | hzx
        · exact absurd (htrans z x y hzx h) (by simp [hy z hz])
        · exact hzx
    · rw [if_neg (by simp [h])]
      refine List.pairwise_cons.mpr ⟨?_, ih hys⟩
      intro z hz
      rcases (ordIns_perm lt x ys).mem_iff.mp hz with hz'
      rcases List.mem_cons.mp hz' with rfl | hz''
      · exact h
      · exact hy z hz''

theorem insSort_pairwise (lt : α → α → Bool)
    (hasymm : ∀ a b, lt a b = true → lt b a = false)
    (htrans : ∀ a b c, lt a b = true → lt b c = true → lt a c = true) :
    ∀ l : List α, (insSort lt l).Pairwise (fun a b => lt b a = false) := by
  intro l
  induction l with
  | nil => simp [insSort]
  | cons x xs ih => exact ordIns_pairwise lt hasymm htrans x _ ih

/-! ### The key order

Python compares strings lexicographically by code points, and compares
`PurePath` objects by their string form. -/

/-- Python's `<` on strings: lexicographic comparison by code points. -/
def keyLt : List Char → List Char → Bool
  | [], [] => false
  | [], _ :: _ => true
  | _ :: _, [] => false
  | a :: as, b :: bs => if a < b then true else if b < a then false else keyLt as bs

theorem keyLt_asymm : ∀ a b, keyLt a b = true → keyLt b a = false := by
  intro a
  induction a with
  | nil =>
    intro b h
    cases b with
    | nil => simp [keyLt] at h
    | cons y ys => simp [keyLt]
  | cons x xs ih =>
    intro b h
    cases b with
    | nil => simp [keyLt] at h
    | cons y ys =>
      simp only [keyLt] at h ⊢
      rcases lt_trichotomy x y with hxy | hxy | hxy
      · rw [if_neg (asymm hxy), if_pos hxy]
      · subst hxy
        rw [if_neg (lt_irrefl x), if_neg (lt_irrefl x)] at h ⊢
        exact ih ys h
      · rw [if_neg (asymm hxy), if_pos hxy] at h
        simp at h

theorem keyLt_trans : ∀ a b c, keyLt a b = true → keyLt b c = true → keyLt a c = true := by
  intro a
  induction a with
  | nil =>
    intro b c hab hbc
    cases b with
    | nil => simp [keyLt] at hab
    | cons y ys =>
      cases c with
      | nil => simp [keyLt] at hbc
      | cons z zs => simp [keyLt]
  | cons x xs ih =>
    intro b c hab hbc
    cases b with
    | nil => simp [keyLt] at hab
    | cons y ys =>
      cases c with
      | nil => simp [keyLt] at hbc
      | cons z zs =>
        simp only [keyLt] at hab hbc ⊢
        rcases lt_trichotomy x y with hxy | hxy | hxy
        · rcases lt_trichotomy y z with hyz | hyz | hyz
          · rw [if_pos (lt_trans hxy hyz)]
          · subst hyz; rw [if_pos hxy]
          · rw [if_neg (asymm hyz), if_pos hyz] at hbc
            simp at hbc
        · subst hxy
          rw [if_neg (lt_irrefl x), if_neg (lt_irrefl x)] at hab
          rcases lt_trichotomy x z with hyz | hyz | hyz
          · rw [if_pos hyz]
          · subst hyz
            rw [if_neg (lt_irrefl x), if_neg (lt_irrefl x)] at hbc ⊢
            exact ih ys zs hab hbc
          · rw [if_neg (asymm hyz), if_pos hyz] at hbc
            simp at hbc
        · rw [if_neg (asymm hxy), if_pos hxy] at hab
          simp at hab

theorem keyLt_conn : ∀ a b, keyLt a b = false → keyLt b a = false → a = b := by
  intro a
  induction a with
  | nil =>
    intro b h _
    cases b with
    | nil => rfl
    | cons y ys => simp [keyLt] at h
  | cons x xs ih =>
    intro b hab hba
    cases b with
    | nil => simp [keyLt] at hba
    | cons y ys =>
      simp only [keyLt] at hab hba
      rcases lt_trichotomy x y with hxy | hxy | hxy
      · rw [if_pos hxy] at hab; simp at hab
      · subst hxy
        rw [if_neg (lt_irrefl x), if_neg (lt_irrefl x)] at hab hba
        rw [ih ys hab hba]
      · rw [if_pos hxy] at hba; simp at hba

/-! ### Glob matcher lemmas -/

/-- Patterns consisting only of literal characters: no `*`, `?`, and no
character-class opener (the one construct `globMatch` does not model). -/
def plainPat (p : List Char) : Bool :=
  p.all (fun c => !(c = '*' || c = '?' || c = '['))

/-- Bare segment patterns additionally contain no separator. -/
def plainSeg (p : List Char) : Bool :=
  p.all (fun c => !(c = '*' || c = '?' || c = '[' || c = '/'))

theorem globMatch_star_cons (ps s : List Char) :
    globMatch ('*' :: ps) s = s.tails.any (fun t => globMatch ps t) := rfl

theorem globMatch_lit_cons (c : Char) (ps s : List Char)
    (hstar : ¬c = '*') (hq : ¬c = '?') :
    globMatch (c :: ps) s =
      match s with
      | [] => false
      | d :: ds => (c == d) && globMatch ps ds := by
  cases s <;> simp [globMatch, hstar, hq]

theorem globMatch_star : ∀ s : List Char, globMatch ['*'] s = true := by
  intro s
  rw [globMatch_star_cons]
  refine List.any_eq_true.mpr ⟨[], (List.mem_tails [] s).mpr (List.nil_suffix), ?_⟩
  rfl

theorem globMatch_star_star : ∀ s : List Char, globMatch ['*', '*'] s = true := by
  intro s
  rw [globMatch_star_cons]
  exact List.any_eq_true.mpr ⟨s, (List.mem_tails s s).mpr (List.suffix_refl s), globMatch_star s⟩

theorem plainPat_cons (c : Char) (l : List Char) (h : plainPat (c :: l) = true) :
    (¬c = '*' ∧ ¬c = '?') ∧ plainPat l = true := by
  simp only [plainPat, List.all_cons, Bool.and_eq_true] at h
  refine ⟨⟨?_, ?_⟩, h.2⟩
  · intro hc; subst hc; simp at h
  · intro hc; subst hc; simp at h

/-- A plain pattern followed by anything matches exactly the strings that
start with that literal text. -/
theorem globMatch_plain_append (l : List Char) (hl : plainPat l = true) :
    ∀ (ps s : List Char),
      (globMatch (l ++ ps) s = true ↔ ∃ r, s = l ++ r ∧ globMatch ps r = true) := by
  induction l with
  | nil => intro ps s; simp
  | cons c cl ih =>
    intro ps s
    rcases plainPat_cons c cl hl with ⟨⟨hstar, hq⟩, hcl⟩
    cases s with
    | nil =>
      rw [List.cons_append, globMatch_lit_cons c (cl ++ ps) [] hstar hq]
      simp
    | cons d ds =>
      rw [List.cons_append, globMatch_lit_cons c (cl ++ ps) (d :: ds) hstar hq]
      simp only [Bool.and_eq_true, beq_iff_eq, ih hcl ps ds]
      constructor
      · rintro ⟨rfl, r, rfl, hr⟩
        exact ⟨r, rfl, hr⟩
      · rintro ⟨r, heq, hr⟩
        rw [List.cons_append] at heq
        rcases List.cons.injEq d ds c (cl ++ r) ▸ heq with ⟨rfl, rfl⟩
        · exact ⟨rfl, r, rfl, hr⟩

/-- A plain pattern matches exactly itself. -/
theorem globMatch_plain (l : List Char) (hl : plainPat l = true) (s : List Char) :
    globMatch l s = true ↔ s = l := by
  have h := globMatch_plain_append l hl [] s
  rw [List.append_nil] at h
  rw [h]
  constructor
  · rintro ⟨r, rfl, hr⟩
    have : r = [] := by
      cases r with
      | nil => rfl
      | cons a as => simp [globMatch] at hr
    subst this; simp
  · rintro rfl
    exact ⟨[], by simp, rfl⟩

/-- A plain pattern followed by a double star matches exactly the strings
with that literal text as a left part. -/
theorem globMatch_plain_dstar (l : List Char) (hl : plainPat l = true) (s : List Char) :
    globMatch (l ++ ['*', '*']) s = true ↔ l <+: s := by
  rw [globMatch_plain_append l hl]
  constructor
  · rintro ⟨r, rfl, _⟩
    exact ⟨r, rfl⟩
  · rintro ⟨r, rfl⟩
    exact ⟨r, rfl, globMatch_star_star r⟩

theorem concat_isPre_concat (l d : List Char) (c : Char) :
    (l ++ [c]) <+: (d ++ [c]) ↔ d = l ∨ (l ++ [c]) <+: d := by
  constructor
  · rintro ⟨t, ht⟩
    rcases List.eq_nil_or_concat t with rfl | ⟨t₀, b, rfl⟩
    · rw [List.append_nil] at ht
      exact Or.inl (List.append_cancel_right ht).symm
    · right
      rw [List.concat_eq_append, ← List.append_assoc] at ht
      have hd : l ++ [c] ++ t₀ = d := by
        have := congrArg List.dropLast ht
        rwa [List.dropLast_concat, List.dropLast_concat] at this
      exact ⟨t₀, hd⟩
  · rintro (rfl | ⟨t, rfl⟩)
    · exact ⟨[], by simp⟩
    · exact ⟨t ++ [c], by simp⟩

/-- The `/**`-suffix clause of `should_exclude_subtree` fires exactly on
the pattern's root and everything below it. -/
theorem prune_of_dstar_mem (X : List Char) (rel : List (List Char))
    (patterns : List (List Char)) (hmem : (X ++ chars "/**") ∈ patterns)
    (h : pathString rel = X ∨ (X ++ ['/']) <+: pathString rel) :
    should_exclude_subtree rel patterns = true := by
  refine List.any_eq_true.mpr ⟨X ++ chars "/**", hmem, ?_⟩
  have hsuf : (chars "/**").isSuffixOf (X ++ chars "/**") = true :=
    List.isSuffixOf_iff_suffix.mpr ⟨X, rfl⟩
  have htake : (X ++ chars "/**").take ((X ++ chars "/**").length - 3) = X := by
    refine List.take_left' ?_
    simp [chars]
  rw [if_pos hsuf, htake]
  rcases h with h | h
  · simp [h]
  · rw [List.isPrefixOf_iff_prefix.mpr h]
    simp

theorem nostar_no_dstar_tails (l : List Char) (h : ∀ c ∈ l, ¬c = '*') :
    l.tails.any (fun t => (chars "**").isPrefixOf t) = false := by
  refine List.any_eq_false.mpr ?_
  intro t ht
  have hsuf : t <:+ l := (List.mem_tails t l).mp ht
  cases t with
  | nil => simp [chars, List.isPrefixOf]
  | cons a as =>
    have ha : a ∈ l := hsuf.subset (List.mem_cons_self a as)
    have hne : ¬a = '*' := h a ha
    have hbeq : ('*' == a) = false := beq_eq_false_iff_ne.mpr (fun he => hne he.symm)
    simp only [Bool.not_eq_true]
    show (('*' == a) && (['*'].isPrefixOf as)) = false
    rw [hbeq, Bool.false_and]

theorem plainPat_append_slash (X : List Char) (hX : plainPat X = true) :
    plainPat (X ++ ['/']) = true := by
  simp only [plainPat, List.all_append, Bool.and_eq_true] at hX ⊢
  exact ⟨hX, by decide⟩

theorem dstar_pattern_split (X : List Char) :
    X ++ chars "/**" = (X ++ ['/']) ++ ['*', '*'] := by
  simp [chars]

/-- Full characterisation of `should_exclude_subtree` on a single
subtree-wildcard pattern `X/**` with literal `X`: the directory is pruned
exactly when it is the pattern's root or lies strictly below it. -/
theorem should_exclude_subtree_dstar_iff (X : List Char) (hX : plainPat X = true)
    (rel : List (List Char)) :
    should_exclude_subtree rel [X ++ chars "/**"] = true ↔
      (pathString rel = X ∨ (X ++ ['/']) <+: pathString rel) := by
  constructor
  · intro h
    rcases List.any_eq_true.mp h with ⟨p, hp, hcond⟩
    rcases List.mem_singleton.mp hp with rfl
    have hplain : plainPat (X ++ ['/']) = true := plainPat_append_slash X hX
    simp only [Bool.or_eq_true] at hcond
    rcases hcond with (hite | hflat) | hslash
    · have hsuf : (chars "/**").isSuffixOf (X ++ chars "/**") = true :=
        List.isSuffixOf_iff_suffix.mpr ⟨X, rfl⟩
      have htake : (X ++ chars "/**").take ((X ++ chars "/**").length - 3) = X := by
        refine List.take_left' ?_
        simp [chars]
      rw [if_pos hsuf, htake] at hite
      simp only [Bool.or_eq_true, beq_iff_eq, List.isPrefixOf_iff_prefix] at hite
      exact hite
    · rw [dstar_pattern_split] at hflat
      exact Or.inr ((globMatch_plain_dstar (X ++ ['/']) hplain _).mp hflat)
    · rw [dstar_pattern_split] at hslash
      have := (globMatch_plain_dstar (X ++ ['/']) hplain _).mp hslash
      exact (concat_isPre_concat X (pathString rel) '/').mp this
  · intro h
    exact prune_of_dstar_mem X rel _ (List.mem_singleton.mpr rfl) h

theorem contains_slash_false (l : List Char) (h : ∀ c ∈ l, ¬c = '/') :
    l.contains '/' = false := by
  have hm : ('/' ∈ l) → False := fun hm => h '/' hm rfl
  have := List.elem_eq_mem '/' l
  rw [decide_eq_false hm] at this
  exact this

theorem any_congr_fun (l : List α) (f g : α → Bool) (h : ∀ a ∈ l, f a = g a) :
    l.any f = l.any g := by
  induction l with
  | nil => rfl
  | cons x xs ih =>
    simp only [List.any_cons]
    rw [h x (List.mem_cons_self x xs), ih (fun a ha => h a (List.mem_cons_of_mem x ha))]

theorem hasSub_star_dot_false (ext : List Char) (hs : ∀ c ∈ ext, ¬c = '*') :
    hasSub (chars "**") ('*' :: '.' :: ext) = false := by
  show (('*' :: '.' :: ext).tails.any fun t => (chars "**").isPrefixOf t) = false
  rw [List.tails_cons, List.any_cons]
  have h1 : (chars "**").isPrefixOf ('*' :: '.' :: ext) = false := rfl
  rw [h1, Bool.false_or]
  refine nostar_no_dstar_tails ('.' :: ext) ?_
  intro c hc
  rcases List.mem_cons.mp hc with rfl | hc
  · decide
  · exact hs c hc

theorem matches_path_singleton_bare (pat : List Char) (parts : List (List Char))
    (h1 : pat.contains '/' = false) (h2 : hasSub (chars "**") pat = false) :
    matches_path parts [pat] = parts.any (fun part => globMatch pat part) := by
  simp only [matches_path, List.any_cons, List.any_nil, Bool.or_false]
  rw [h1, h2]
  simp

theorem globMatch_star_then_plain (l : List Char) (hl : plainPat l = true) (s : List Char) :
    globMatch ('*' :: l) s = true ↔ l <:+ s := by
  rw [globMatch_star_cons, List.any_eq_true]
  constructor
  · rintro ⟨t, ht, hm⟩
    have := (globMatch_plain l hl t).mp hm
    subst this
    exact (List.mem_tails t s).mp ht
  · intro h
    exact ⟨l, (List.mem_tails l s).mpr h, (globMatch_plain l hl l).mpr rfl⟩

theorem plainSeg_star (ext : List Char) (he : plainSeg ext = true) :
    ∀ c ∈ ext, ¬c = '*' := by
  intro c hc hcontra
  subst hcontra
  have := (List.all_eq_true.mp he) '*' hc
  simp at this

theorem plainSeg_plainPat (ext : List Char) (he : plainSeg ext = true) :
    plainPat ('.' :: ext) = true := by
  simp only [plainPat, List.all_cons, Bool.and_eq_true]
  refine ⟨by decide, ?_⟩
  refine List.all_eq_true.mpr ?_
  intro c hc
  have := (List.all_eq_true.mp he) c hc
  simp only [Bool.not_eq_eq_eq_not, Bool.not_true, Bool.or_eq_false_iff] at this ⊢
  exact ⟨⟨this.1.1.1, this.1.1.2⟩, this.1.2⟩

/-- A bare extension pattern `*.ext` (plain `ext`) matches a path exactly
when some component of the path ends with `.ext`. -/
theorem matches_path_bare_ext (ext : List Char) (he : plainSeg ext = true)
    (parts : List (List Char)) :
    matches_path parts ['*' :: '.' :: ext] =
      parts.any (fun part => ('.' :: ext).isSuffixOf part) := by
  have hslash : ∀ c ∈ ('*' :: '.' :: ext), ¬c = '/' := by
    intro c hc
    rcases List.mem_cons.mp hc with rfl | hc
    · decide
    · rcases List.mem_cons.mp hc with rfl | hc
      · decide
      · intro hcontra
        subst hcontra
        have := (List.all_eq_true.mp he) '/' hc
        simp at this
  rw [matches_path_singleton_bare _ parts (contains_slash_false _ hslash)
    (hasSub_star_dot_false ext (plainSeg_star ext he))]
  refine any_congr_fun parts _ _ ?_
  intro part _
  rw [Bool.eq_iff_iff]
  rw [globMatch_star_then_plain ('.' :: ext) (plainSeg_plainPat ext he) part]
  exact (List.isSuffixOf_iff_suffix).symm

/-! ### Repository discovery

`find_git_repo_roots` (`src/tools/catp/core.py`, lines 53-126) walks a
FIFO queue of `(directory, depth)` pairs.  The filesystem is embedded as
a finite tree of directories: a node carries its name, whether it holds a
`.git` directory, and its subdirectories.  There are no symbolic links in
the tree model, so `Path.resolve` is the identity and the visited set is
keyed by the path relative to the scan root.  The loop runs one iteration
per dequeued directory; every directory is enqueued at most once, so the
node count of the tree bounds the number of iterations and is used as
structural fuel. -/

inductive FSTree where
  | node (name : List Char) (hasGit : Bool) (children : List FSTree)

def fname : FSTree → List Char
  | .node n _ _ => n

def fgit : FSTree → Bool
  | .node _ g _ => g

def fchildren : FSTree → List FSTree
  | .node _ _ c => c

mutual
def fsize : FSTree → Nat
  | .node _ _ cs => 1 + fsizeL cs
def fsizeL : List FSTree → Nat
  | [] => 0
  | t :: ts => fsize t + fsizeL ts
end

/-- `depth < max_depth`, where `none` models the `float('inf')` sentinel
that disables the depth bound. -/
def depthLt (d : Nat) : Option Nat → Bool
  | none => true
  | some m => decide (d < m)

/-- `sorted(current_dir.iterdir())`: subdirectories are visited in
lexicographic order of their path strings, i.e. of their names. -/
def sortChildren (cs : List FSTree) : List FSTree :=
  insSort (fun a b => keyLt (fname a) (fname b)) cs

/-- The inner `for child in sorted(current_dir.iterdir())` loop (lines
101-118): skip a child already visited, skip built-in excluded directory
names, skip (and do not enqueue) a child whose relative path
`should_exclude_subtree` prunes; otherwise mark visited and enqueue at
`depth+1`.  Returns the updated visited set and the entries appended to
the queue, in order. -/
def processChildren (dirs excl : List (List Char)) (rel : List (List Char)) (depth : Nat) :
    List FSTree → List (List (List Char)) →
      List (List (List Char)) × List (FSTree × List (List Char) × Nat)
  | [], visited => (visited, [])
  | c :: cs, visited =>
    let crel := rel ++ [fname c]
    if visited.contains crel then processChildren dirs excl rel depth cs visited
    else if dirs.contains (fname c) then processChildren dirs excl rel depth cs visited
    else if should_exclude_subtree crel excl then processChildren dirs excl rel depth cs visited
    else
      let r := processChildren dirs excl rel depth cs (crel :: visited)
      (r.1, (c, crel, depth + 1) :: r.2)

/-- The `while head < len(queue)` loop (lines 74-120).  State: remaining
queue, visited set, repositories found so far, and (instrumentation for
the traversal-level claims) the log of every directory ever enqueued.
One fuel unit is spent per dequeue. -/
def bfsLoop (dirs only excl : List (List Char)) (maxDepth : Option Nat) :
    Nat → List (FSTree × List (List Char) × Nat) → List (List (List Char)) →
      List (List (List Char)) → List (List (List Char)) →
      List (List (List Char)) × List (List (List Char))
  | 0, _, _, repos, enqLog => (repos, enqLog)
  | _ + 1, [], _, repos, enqLog => (repos, enqLog)
  | fuel + 1, (t, rel, d) :: rest, visited, repos, enqLog =>
    let repos1 :=
      if fgit t then
        if rel ≠ [] then
          if matches_path rel excl then repos
          else if !only.isEmpty && !matches_path rel only then repos
          else repos ++ [rel]
        else repos ++ [rel]
      else repos
    if depthLt d maxDepth then
      let pr := processChildren dirs excl rel d (sortChildren (fchildren t)) visited
      bfsLoop dirs only excl maxDepth fuel (rest ++ pr.2) pr.1 repos1
        (enqLog ++ pr.2.map (fun e => e.2.1))
    else
      bfsLoop dirs only excl maxDepth fuel rest visited repos1 enqLog

/-- Keep the first occurrence of each element (Python `set` semantics for
the final `sorted(list(repo_roots_found))`; duplicates cannot actually
arise because each directory is dequeued once). -/
def dedupKeep : List (List (List Char)) → List (List (List Char))
  | [] => []
  | x :: xs => if xs.contains x then dedupKeep xs else x :: dedupKeep xs

/-- `find_git_repo_roots` (lines 53-126).  Returns the sorted repository
roots (as paths relative to the scan root) together with the log of every
enqueued directory.  `dirs` stands for the imported `GLOB_EXCLUDE_DIRS`
constant, `only`/`excl` for `only_patterns`/`exclude_patterns`.  The
final fallback (lines 122-124) adds the scan root itself when nothing was
found and it is a repository. -/
def find_git_repo_roots (root : FSTree) (maxDepth : Option Nat)
    (only excl dirs : List (List Char)) :
    List (List (List Char)) × List (List (List Char)) :=
  let r := bfsLoop dirs only excl maxDepth (fsize root) [(root, [], 0)] [[]] [] [[]]
  let found := if r.1.isEmpty && fgit root then [([] : List (List Char))] else r.1
  (insSort (fun a b => keyLt (pathString a) (pathString b)) (dedupKeep found), r.2)

/-! ### Traversal-level pruning invariant -/

/-- A relative path lies under `excluded/`: it is the directory
`excluded` itself or starts with the separator-bounded `excluded/`. -/
def underEx (rel : List (List Char)) : Bool :=
  (pathString rel == chars "excluded") ||
    (chars "excluded/").isPrefixOf (pathString rel)

theorem underEx_prune (excl : List (List Char)) (hmem : chars "excluded/**" ∈ excl)
    (rel : List (List Char)) (h : underEx rel = true) :
    should_exclude_subtree rel excl = true := by
  have hsplit : chars "excluded" ++ chars "/**" = chars "excluded/**" := by decide
  have hslash : chars "excluded" ++ ['/'] = chars "excluded/" := by decide
  refine prune_of_dstar_mem (chars "excluded") rel excl (by rw [hsplit]; exact hmem) ?_
  simp only [underEx, Bool.or_eq_true, beq_iff_eq, List.isPrefixOf_iff_prefix] at h
  rw [hslash]
  exact h

theorem underEx_of_prune_false (excl : List (List Char))
    (hmem : chars "excluded/**" ∈ excl) (rel : List (List Char))
    (h : should_exclude_subtree rel excl = false) : underEx rel = false := by
  rcases Bool.eq_false_or_eq_true (underEx rel) with h' | h'
  · rw [underEx_prune excl hmem rel h'] at h
    cases h
  · exact h'

theorem processChildren_not_pruned (dirs excl : List (List Char))
    (rel : List (List Char)) (depth : Nat) :
    ∀ (cs : List FSTree) (visited : List (List (List Char))),
      ∀ e ∈ (processChildren dirs excl rel depth cs visited).2,
        should_exclude_subtree e.2.1 excl = false := by
  intro cs
  induction cs with
  | nil => intro visited e he; simp [processChildren] at he
  | cons c cs ih =>
    intro visited e he
    simp only [processChildren] at he
    by_cases h1 : visited.contains (rel ++ [fname c]) = true
    · rw [if_pos h1] at he
      exact ih visited e he
    · rw [if_neg h1] at he
      by_cases h2 : dirs.contains (fname c) = true
      · rw [if_pos h2] at he
        exact ih visited e he
      · rw [if_neg h2] at he
        by_cases h3 : should_exclude_subtree (rel ++ [fname c]) excl = true
        · rw [if_pos h3] at he
          exact ih visited e he
        · rw [if_neg h3] at he
          rcases List.mem_cons.mp he with rfl | he'
          · exact Bool.not_eq_true _ |>.mp h3
          · exact ih _ e he'

theorem bfsLoop_underEx (dirs only excl : List (List Char)) (maxDepth : Option Nat)
    (hmem : chars "excluded/**" ∈ excl) :
    ∀ (fuel : Nat) (queue : List (FSTree × List (List Char) × Nat))
      (visited repos enqLog : List (List (List Char))),
      (∀ e ∈ queue, underEx e.2.1 = false) →
      (∀ r ∈ repos, underEx r = false) →
      (∀ r ∈ enqLog, underEx r = false) →
      (∀ r ∈ (bfsLoop dirs only excl maxDepth fuel queue visited repos enqLog).1,
          underEx r = false) ∧
      (∀ r ∈ (bfsLoop dirs only excl maxDepth fuel queue visited repos enqLog).2,
          underEx r = false) := by
  intro fuel
  induction fuel with
  | zero => intro queue visited repos enqLog _ hr hl; exact ⟨hr, hl⟩
  | succ fuel ih =>
    intro queue visited repos enqLog hq hr hl
    cases queue with
    | nil => exact ⟨hr, hl⟩
    | cons e rest =>
      rcases e with ⟨t, rel, d⟩
      have hrel : underEx rel = false := hq (t, rel, d) (List.mem_cons_self _ _)
      have hrest : ∀ e ∈ rest, underEx e.2.1 = false :=
        fun e he => hq e (List.mem_cons_of_mem _ he)
      simp only [bfsLoop]
      have hrepos1 : ∀ r ∈ (if fgit t then
          if rel ≠ [] then
            if matches_path rel excl then repos
            else if !only.isEmpty && !matches_path rel only then repos
            else repos ++ [rel]
          else repos ++ [rel]
        else repos), underEx r = false := by
        intro r hr'
        split at hr'
        · split at hr'
          · split at hr'
            · exact hr r hr'
            · split at hr'
              · exact hr r hr'
              · rcases List.mem_append.mp hr' with h | h
                · exact hr r h
                · rcases List.mem_singleton.mp h with rfl
                  exact hrel
          · rcases List.mem_append.mp hr' with h | h
            · exact hr r h
            · rcases List.mem_singleton.mp h with rfl
              exact hrel
        · exact hr r hr'
      split
      · refine ih _ _ _ _ ?_ hrepos1 ?_
        · intro e he
          rcases List.mem_append.mp he with h | h
          · exact hrest e h
          · exact underEx_of_prune_false excl hmem _
              (processChildren_not_pruned dirs excl rel d _ visited e h)
        · intro r hr'
          rcases List.mem_append.mp hr' with h | h
          · exact hl r h
          · rcases List.mem_map.mp h with ⟨e, he, rfl⟩
            exact underEx_of_prune_false excl hmem _
              (processChildren_not_pruned dirs excl rel d _ visited e he)
      · exact ih _ _ _ _ hrest hrepos1 hl

theorem mem_dedupKeep (l : List (List (List Char))) (a : List (List Char))
    (h : a ∈ dedupKeep l) : a ∈ l := by
  induction l with
  | nil => simp [dedupKeep] at h
  | cons x xs ih =>
    simp only [dedupKeep] at h
    by_cases hc : xs.contains x = true
    · rw [if_pos hc] at h
      exact List.mem_cons_of_mem x (ih h)
    · rw [if_neg hc] at h
      rcases List.mem_cons.mp h with rfl | h'
      · exact List.mem_cons_self _ _
      · exact List.mem_cons_of_mem x (ih h')

theorem find_git_repo_roots_underEx (root : FSTree) (maxDepth : Option Nat)
    (only excl dirs : List (List Char)) (hmem : chars "excluded/**" ∈ excl) :
    (∀ rel ∈ (find_git_repo_roots root maxDepth only excl dirs).2, underEx rel = false) ∧
    (∀ rel ∈ (find_git_repo_roots root maxDepth only excl dirs).1, underEx rel = false) := by
  have hnil : underEx ([] : List (List Char)) = false := by decide
  have hmain := bfsLoop_underEx dirs only excl maxDepth hmem (fsize root)
    [(root, [], 0)] [[]] [] [[]]
    (by intro e he; rcases List.mem_singleton.mp he with rfl; exact hnil)
    (by intro r hr; simp at hr)
    (by intro r hr; rcases List.mem_singleton.mp hr with rfl; exact hnil)
  constructor
  · intro rel hrel
    exact hmain.2 rel hrel
  · intro rel hrel
    simp only [find_git_repo_roots] at hrel
    have hrel' := mem_dedupKeep _ _ ((mem_insSort _ _ _).mp hrel)
    by_cases hfb : ((bfsLoop dirs only excl maxDepth (fsize root)
        [(root, [], 0)] [[]] [] [[]]).1.isEmpty && fgit root) = true
    · rw [if_pos hfb] at hrel'
      rcases List.mem_singleton.mp hrel' with rfl
      exact hnil
    · rw [if_neg hfb] at hrel'
      exact hmain.1 rel hrel'

/-! ### Configuration constants

`src/tools/catp/core.py` imports `EXCLUDE_FILE_PATTERNS`,
`GLOB_EXCLUDE_DIRS` and `GLOB_INCLUDE` from its `config` module; the same
constants are defined inline by the predecessor script
`src/bin/cat_project.py` (lines 25-141), from which these values are
taken.  The collection theorems are stated for arbitrary constant values
and only the concrete scenarios instantiate these. -/

def GLOB_EXCLUDE_DIRS : List (List Char) :=
  [chars ".git", chars "node_modules", chars "dist", chars "build", chars ".venv",
   chars "__pycache__", chars "bin", chars "obj", chars ".vs", chars ".vscode",
   chars "vendor"]

def EXCLUDE_FILE_PATTERNS : List (List Char) :=
  [chars "*.min.*", chars "*.png", chars "*.jpg", chars "*.jpeg", chars "*.gif",
   chars "*.ico", chars "*.svg", chars "*.woff", chars "*.woff2", chars "*.ttf",
   chars "*.otf", chars "*.eot", chars "*.pdf", chars "*.doc", chars "*.docx",
   chars "*.xls", chars "*.xlsx", chars "*.zip", chars "*.tar*", chars "*.gz",
   chars "*.bz2", chars "*.rar", chars "*.7z", chars "*.nupkg", chars "*.snupkg",
   chars "*.dll", chars "*.pdb", chars "*.exe", chars "*.so", chars "*.dylib",
   chars "*.a", chars "*.o", chars "*lock.json", chars "pnpm-lock.yaml",
   chars "project.assets.json"]

/-! ### File collection

`collect` (`src/tools/catp/core.py`, lines 175-244).  The Tracked-File
Lister (`git_files_in_repo`, an external subprocess) and the path
arithmetic of lines 200-209 are modelled by giving each candidate file
directly as a record carrying the `(absolute, display)` path pair the
pooling loop computes, plus the filesystem answers the later stats will
receive: whether the path still names a regular file, its byte size
(`none` models an `OSError` from `stat`), and its text content (which
`collect` never reads). -/

structure FileEntry where
  displayParts : List (List Char)
  absParts : List (List Char)
  isFile : Bool
  statSize : Option Nat
  content : List Char
deriving DecidableEq

/-- `within_size` (lines 153-159): true when the path is a regular file
and its byte size is at most `kb * 1024`; an `OSError` yields false. -/
def within_size (f : FileEntry) (kb : Nat) : Bool :=
  f.isFile &&
    match f.statSize with
    | some n => decide (n ≤ kb * 1024)
    | none => false

/-- The size recorded for a skipped-large file (lines 237-240): the byte
size floor-divided by 1024, or `-1` when the re-stat raises `OSError`. -/
def skippedSize (f : FileEntry) : Int :=
  match f.statSize with
  | some n => ((n / 1024 : Nat) : Int)
  | none => -1

/-- The active exclude set (lines 188-195): built-in defaults, minus the
allow overrides, plus the user excludes.  The `if` guards in the source
are no-ops for empty lists and are absorbed by the unconditional
formulation. -/
def active_exclude_patterns (defaults allow user : List (List Char)) : List (List Char) :=
  defaults.filter (fun p => !allow.contains p) ++ user

/-- Per-invocation configuration of `collect`: the three imported
constants together with the caller-supplied arguments. -/
structure CollectCfg where
  globExcludeDirs : List (List Char)
  excludeFileDefaults : List (List Char)
  globInclude : List (List Char)
  sizeKb : Nat
  scopedPaths : List (List (List Char))
  onlyPatterns : List (List Char)
  excludePatterns : List (List Char)
  allowPatterns : List (List Char)

def activeExcludeOf (c : CollectCfg) : List (List Char) :=
  active_exclude_patterns c.excludeFileDefaults c.allowPatterns c.excludePatterns

/-- Line 197: user `only` patterns replace the default include set. -/
def includeOf (c : CollectCfg) : List (List Char) :=
  if c.onlyPatterns.isEmpty then c.globInclude else c.onlyPatterns

/-- The filter pipeline of the per-file loop (lines 213-230): regular
file, no excluded directory component, not excluded by pattern, inside a
scoped path if any were given, and matched by the include set. -/
def passes_filters (c : CollectCfg) (f : FileEntry) : Bool :=
  f.isFile &&
  !(f.displayParts.any (fun part => c.globExcludeDirs.contains part)) &&
  !(matches_path f.displayParts (activeExcludeOf c)) &&
  (c.scopedPaths.isEmpty || c.scopedPaths.any (fun sp => sp.isPrefixOf f.absParts)) &&
  matches_path f.displayParts (includeOf c)

/-- The body of the `for p_abs, p_display in all_git_files` loop (lines
213-241): a candidate passing the filters goes to the kept dict if within
the size limit and its display path is new, and to the skipped-large list
otherwise. -/
def collectFold (c : CollectCfg) :
    List FileEntry → List (List (List Char) × List (List Char)) →
      List (List (List Char) × Int) →
      List (List (List Char) × List (List Char)) × List (List (List Char) × Int)
  | [], kept, skipped => (kept, skipped)
  | f :: fs, kept, skipped =>
    if passes_filters c f then
      if within_size f c.sizeKb then
        if (kept.map Prod.fst).contains f.displayParts then
          collectFold c fs kept skipped
        else
          collectFold c fs (kept ++ [(f.displayParts, f.absParts)]) skipped
      else
        collectFold c fs kept (skipped ++ [(f.displayParts, skippedSize f)])
    else
      collectFold c fs kept skipped

/-- Comparator for the final `sorted(kept_files.items())`: Python
compares `(Path, Path)` tuples, i.e. primarily the display path's string
form (keys are unique, so the tie-break never fires). -/
def keptLt (a b : List (List Char) × List (List Char)) : Bool :=
  keyLt (pathString a.1) (pathString b.1)

/-- Comparator for `sorted(skipped_large)`: `(Path, int)` tuples. -/
def skipLt (a b : List (List Char) × Int) : Bool :=
  if keyLt (pathString a.1) (pathString b.1) then true
  else if keyLt (pathString b.1) (pathString a.1) then false
  else decide (a.2 < b.2)

/-- `collect` (lines 175-244): pool the candidates of every repository in
order (lines 200-211), run the filter pipeline, and return the kept pairs
sorted by display path together with the sorted skipped-large list. -/
def collect (c : CollectCfg) (repoFiles : List (List FileEntry)) :
    List (List (List Char) × List (List Char)) × List (List (List Char) × Int) :=
  let r := collectFold c repoFiles.flatten [] []
  (insSort keptLt r.1, insSort skipLt r.2)

/-! ### Characterisation of `collect` -/

/-- A candidate that will occupy display slot `d`: it passes the filter
pipeline, is within size, and has display path `d`. -/
def eligWith (c : CollectCfg) (d : List (List Char)) (f : FileEntry) : Bool :=
  passes_filters c f && within_size f c.sizeKb && f.displayParts == d

/-- The kept entries contributed by a candidate list, given the display
keys already present: first occurrence of each new display path wins. -/
def dedupElig (c : CollectCfg) :
    List (List (List Char)) → List FileEntry →
      List (List (List Char) × List (List Char))
  | _, [] => []
  | keys, f :: fs =>
    if passes_filters c f && within_size f c.sizeKb && !keys.contains f.displayParts then
      (f.displayParts, f.absParts) :: dedupElig c (keys ++ [f.displayParts]) fs
    else dedupElig c keys fs

theorem collectFold_kept (c : CollectCfg) :
    ∀ (fs : List FileEntry) (kept : List (List (List Char) × List (List Char)))
      (skipped : List (List (List Char) × Int)),
      (collectFold c fs kept skipped).1 = kept ++ dedupElig c (kept.map Prod.fst) fs := by
  intro fs
  induction fs with
  | nil => intro kept skipped; simp [collectFold, dedupElig]
  | cons f fs ih =>
    intro kept skipped
    simp only [collectFold, dedupElig]
    by_cases hp : passes_filters c f = true
    · rw [if_pos hp]
      by_cases hw : within_size f c.sizeKb = true
      · rw [if_pos hw]
        by_cases hk : (kept.map Prod.fst).contains f.displayParts = true
        · rw [if_pos hk, if_neg (by rw [hp, hw, hk]; decide), ih]
        · have hk' : (kept.map Prod.fst).contains f.displayParts = false :=
            Bool.not_eq_true _ |>.mp hk
          rw [if_neg hk, if_pos (by rw [hp, hw, hk']; decide), ih]
          simp
      · have hw' : within_size f c.sizeKb = false := Bool.not_eq_true _ |>.mp hw
        rw [if_neg hw, if_neg (by rw [hp, hw']; simp), ih]
    · have hp' : passes_filters c f = false := Bool.not_eq_true _ |>.mp hp
      rw [if_neg hp, if_neg (by rw [hp']; simp), ih]

theorem collectFold_skipped (c : CollectCfg) :
    ∀ (fs : List FileEntry) (kept : List (List (List Char) × List (List Char)))
      (skipped : List (List (List Char) × Int)),
      (collectFold c fs kept skipped).2 = skipped ++
        (fs.filter (fun f => passes_filters c f && !within_size f c.sizeKb)).map
          (fun f => (f.displayParts, skippedSize f)) := by
  intro fs
  induction fs with
  | nil => intro kept skipped; simp [collectFold]
  | cons f fs ih =>
    intro kept skipped
    simp only [collectFold]
    by_cases hp : passes_filters c f = true
    · rw [if_pos hp]
      by_cases hw : within_size f c.sizeKb = true
      · have hf : (passes_filters c f && !within_size f c.sizeKb) = false := by
          simp [hp, hw]
        rw [if_pos hw, List.filter_cons_of_neg (by simp [hf])]
        by_cases hk : (kept.map Prod.fst).contains f.displayParts = true
        · rw [if_pos hk, ih]
        · rw [if_neg hk, ih]
      · have hf : (passes_filters c f && !within_size f c.sizeKb) = true := by
          simp [hp, hw]
        rw [if_neg hw, List.filter_cons_of_pos (by simp [hf]), ih]
        simp
    · have hf : (passes_filters c f && !within_size f c.sizeKb) = false := by
        simp [hp]
      rw [if_neg hp, List.filter_cons_of_neg (by simp [hf]), ih]

theorem contains_append_one (keys : List (List (List Char))) (x d : List (List Char)) :
    (keys ++ [x]).contains d = (keys.contains d || x == d) := by
  rw [Bool.eq_iff_iff]
  simp only [Bool.or_eq_true, List.contains, List.elem_iff, List.mem_append,
    List.mem_singleton, beq_iff_eq]
  constructor
  · rintro (h | rfl)
    · exact Or.inl h
    · exact Or.inr rfl
  · rintro (h | rfl)
    · exact Or.inl h
    · exact Or.inr rfl

theorem dedupElig_mem (c : CollectCfg) :
    ∀ (fs : List FileEntry) (keys : List (List (List Char)))
      (d a : List (List Char)),
      ((d, a) ∈ dedupElig c keys fs ↔
        keys.contains d = false ∧
          ∃ f, fs.find? (eligWith c d) = some f ∧ f.absParts = a) := by
  intro fs
  induction fs with
  | nil => intro keys d a; simp [dedupElig]
  | cons f fs ih =>
    intro keys d a
    simp only [dedupElig]
    by_cases he : (passes_filters c f && within_size f c.sizeKb) = true
    · by_cases hd : f.displayParts = d
      · have hfind : (f :: fs).find? (eligWith c d) = some f := by
          refine List.find?_cons_of_pos fs ?_
          simp [eligWith, hd] at he ⊢
          exact ⟨he.1, he.2⟩
        by_cases hk : keys.contains f.displayParts = true
        · rw [if_neg (by rw [he, hk]; simp), hfind]
          constructor
          · intro hmem
            rcases (ih keys d a).mp hmem with ⟨hc, _⟩
            rw [← hd, hk] at hc
            cases hc
          · rintro ⟨hc, _⟩
            rw [← hd, hk] at hc
            cases hc
        · have hk' : keys.contains f.displayParts = false := Bool.not_eq_true _ |>.mp hk
          rw [if_pos (by rw [he, hk']; simp), hfind]
          subst hd
          constructor
          · intro hmem
            rcases List.mem_cons.mp hmem with heq | hmem'
            · have ha : a = f.absParts := by
                have := congrArg Prod.snd heq
                simpa using this
              subst ha
              exact ⟨hk', f, rfl, rfl⟩
            · rcases (ih _ _ _).mp hmem' with ⟨hc, _⟩
              rw [contains_append_one] at hc
              simp at hc
          · rintro ⟨hc, g, hg, ha⟩
            have hfg : f = g := by injection hg
            subst hfg
            subst ha
            exact List.mem_cons_self _ _
      · have hfind : (f :: fs).find? (eligWith c d) = fs.find? (eligWith c d) := by
          refine List.find?_cons_of_neg fs ?_
          simp [eligWith]
          intro _ _
          exact hd
        rw [hfind]
        by_cases hk : keys.contains f.displayParts = true
        · rw [if_neg (by rw [he, hk]; simp)]
          exact ih keys d a
        · have hk' : keys.contains f.displayParts = false := Bool.not_eq_true _ |>.mp hk
          rw [if_pos (by rw [he, hk']; simp)]
          constructor
          · intro hmem
            rcases List.mem_cons.mp hmem with heq | hmem'
            · exfalso
              have hfst := congrArg Prod.fst heq
              simp only at hfst
              exact hd hfst.symm
            · rcases (ih _ _ _).mp hmem' with ⟨hc, hrest⟩
              rw [contains_append_one] at hc
              simp only [Bool.or_eq_false_iff] at hc
              exact ⟨hc.1, hrest⟩
          · rintro ⟨hc, hrest⟩
            refine List.mem_cons_of_mem _ ((ih _ _ _).mpr ⟨?_, hrest⟩)
            rw [contains_append_one]
            simp only [Bool.or_eq_false_iff]
            exact ⟨hc, beq_eq_false_iff_ne.mpr hd⟩
    · have he' : (passes_filters c f && within_size f c.sizeKb) = false :=
        Bool.not_eq_true _ |>.mp he
      have hfind : (f :: fs).find? (eligWith c d) = fs.find? (eligWith c d) := by
        refine List.find?_cons_of_neg fs ?_
        simp only [eligWith, Bool.and_eq_true]
        rintro ⟨⟨h1, h2⟩, _⟩
        rw [h1, h2] at he'
        cases he'
      rw [if_neg (by rw [he']; simp), hfind]
      exact ih keys d a

theorem dedupElig_keys_nodup (c : CollectCfg) :
    ∀ (fs : List FileEntry) (keys : List (List (List Char))),
      ((dedupElig c keys fs).map Prod.fst).Nodup ∧
      (∀ d ∈ (dedupElig c keys fs).map Prod.fst, keys.contains d = false) := by
  intro fs
  induction fs with
  | nil => intro keys; simp [dedupElig]
  | cons f fs ih =>
    intro keys
    simp only [dedupElig]
    by_cases hcond : (passes_filters c f && within_size f c.sizeKb &&
        !keys.contains f.displayParts) = true
    · rw [if_pos hcond]
      have hkf : keys.contains f.displayParts = false := by
        simp only [Bool.and_eq_true, Bool.not_eq_true'] at hcond
        exact hcond.2
      rcases ih (keys ++ [f.displayParts]) with ⟨hnd, hdisj⟩
      constructor
      · simp only [List.map_cons]
        refine List.nodup_cons.mpr ⟨?_, hnd⟩
        intro hmem
        have := hdisj _ hmem
        rw [contains_append_one] at this
        simp at this
      · intro d hd
        simp only [List.map_cons, List.mem_cons] at hd
        rcases hd with rfl | hd
        · exact hkf
        · have := hdisj d hd
          rw [contains_append_one] at this
          simp only [Bool.or_eq_false_iff] at this
          exact this.1
    · rw [if_neg hcond]
      exact ih keys

theorem collect_kept_mem (c : CollectCfg) (rf : List (List FileEntry))
    (d a : List (List Char)) :
    (d, a) ∈ (collect c rf).1 ↔
      ∃ f, rf.flatten.find? (eligWith c d) = some f ∧ f.absParts = a := by
  simp only [collect]
  rw [mem_insSort, collectFold_kept]
  simp only [List.map_nil, List.nil_append]
  rw [dedupElig_mem]
  have hnil : (([] : List (List (List Char))).contains d) = false := rfl
  rw [hnil]
  exact and_iff_right rfl

theorem collect_skipped_mem (c : CollectCfg) (rf : List (List FileEntry))
    (d : List (List Char)) (k : Int) :
    (d, k) ∈ (collect c rf).2 ↔
      ∃ f ∈ rf.flatten, passes_filters c f = true ∧ within_size f c.sizeKb = false ∧
        f.displayParts = d ∧ skippedSize f = k := by
  simp only [collect]
  rw [mem_insSort, collectFold_skipped]
  simp only [List.nil_append, List.mem_map, List.mem_filter, Bool.and_eq_true,
    Bool.not_eq_true']
  constructor
  · rintro ⟨f, ⟨hf, hp, hw⟩, heq⟩
    have h1 := congrArg Prod.fst heq
    have h2 := congrArg Prod.snd heq
    simp only at h1 h2
    exact ⟨f, hf, hp, hw, h1, h2⟩
  · rintro ⟨f, hf, hp, hw, h1, h2⟩
    exact ⟨f, ⟨hf, hp, hw⟩, by rw [h1, h2]⟩

theorem collect_kept_nodup (c : CollectCfg) (rf : List (List FileEntry)) :
    ((collect c rf).1.map Prod.fst).Nodup := by
  simp only [collect]
  have hperm := (insSort_perm keptLt (collectFold c rf.flatten [] []).1).map Prod.fst
  refine hperm.nodup_iff.mpr ?_
  rw [collectFold_kept]
  simp only [List.map_nil, List.nil_append]
  exact (dedupElig_keys_nodup c rf.flatten []).1

theorem keptLt_asymm (a b : List (List Char) × List (List Char))
    (h : keptLt a b = true) : keptLt b a = false :=
  keyLt_asymm _ _ h

theorem keptLt_trans (a b c : List (List Char) × List (List Char))
    (hab : keptLt a b = true) (hbc : keptLt b c = true) : keptLt a c = true :=
  keyLt_trans _ _ _ hab hbc

theorem collect_kept_sorted (c : CollectCfg) (rf : List (List FileEntry)) :
    (collect c rf).1.Pairwise (fun a b => keptLt b a = false) := by
  simp only [collect]
  exact insSort_pairwise keptLt keptLt_asymm keptLt_trans _

/-- Replace every candidate's content field: `collect` never looks at it. -/
def setContent (g : FileEntry → List Char) (f : FileEntry) : FileEntry :=
  { f with content := g f }

theorem collectFold_setContent (c : CollectCfg) (g : FileEntry → List Char) :
    ∀ (fs : List FileEntry) (kept : List (List (List Char) × List (List Char)))
      (skipped : List (List (List Char) × Int)),
      collectFold c (fs.map (setContent g)) kept skipped = collectFold c fs kept skipped := by
  intro fs
  induction fs with
  | nil => intro kept skipped; rfl
  | cons f fs ih =>
    intro kept skipped
    simp only [List.map_cons, collectFold]
    have h1 : passes_filters c (setContent g f) = passes_filters c f := rfl
    have h2 : within_size (setContent g f) c.sizeKb = within_size f c.sizeKb := rfl
    have h3 : (setContent g f).displayParts = f.displayParts := rfl
    have h4 : (setContent g f).absParts = f.absParts := rfl
    have h5 : skippedSize (setContent g f) = skippedSize f := rfl
    rw [h1, h2, h3, h4, h5]
    by_cases hp : passes_filters c f = true
    · rw [if_pos hp, if_pos hp]
      by_cases hw : within_size f c.sizeKb = true
      · rw [if_pos hw, if_pos hw]
        by_cases hk : (kept.map Prod.fst).contains f.displayParts = true
        · rw [if_pos hk, if_pos hk, ih]
        · rw [if_neg hk, if_neg hk, ih]
      · rw [if_neg hw, if_neg hw, ih]
    · rw [if_neg hp, if_neg hp, ih]

theorem flatten_map_map (g : FileEntry → List Char) :
    ∀ rf : List (List FileEntry),
      (rf.map (List.map (setContent g))).flatten = rf.flatten.map (setContent g) := by
  intro rf
  induction rf with
  | nil => rfl
  | cons l ls ih =>
    simp only [List.map_cons, List.flatten_cons, ih, List.map_append]

theorem collect_setContent (c : CollectCfg) (g : FileEntry → List Char)
    (rf : List (List FileEntry)) :
    collect c (rf.map (List.map (setContent g))) = collect c rf := by
  simp only [collect, flatten_map_map, collectFold_setContent]

/-! ### Rendering

The three output strategies (`src/tools/catp/core.py`, lines 247-441).
Output files and the diagnostic echo stream are modelled as the string
(character list) written; `dst.write` is concatenation, and the
`open("a")` append of the skipped-files footer concatenates after the
end marker.  For `dump_contents` each kept file is given together with
the content string that the read of lines 411-416 produced (after
notebook stripping or error substitution); the normalisation of lines
418-419 is `normalizeContent`. -/

def natChars (n : Nat) : List Char := (Nat.repr n).data

def intChars (i : Int) : List Char := (Int.repr i).data

/-- A line of 80 `=` characters. -/
def ruleLine : List Char := List.replicate 80 '='

/-- Join pieces with a separator (Python `sep.join(...)`). -/
def interChars (sep : List Char) : List (List Char) → List Char
  | [] => []
  | [x] => x
  | x :: y :: rest => x ++ sep ++ interChars sep (y :: rest)

/-- `_write_preamble` (lines 247-254). -/
def write_preamble (name path : List Char) : List Char :=
  chars "START " ++ name ++ chars " (" ++ path ++ chars ")\n" ++ ruleLine ++ chars "\n\n"

/-- `_write_end_marker` (lines 257-262). -/
def write_end_marker (path : List Char) : List Char :=
  chars "\n" ++ ruleLine ++ chars "\nEND " ++ path ++ chars "\n"

/-- Python `str.rstrip()`: remove trailing whitespace characters. -/
def isPySpace (c : Char) : Bool :=
  c = ' ' || c = '\t' || c = '\n' || c = '\x0d' || c = '\x0b' || c = '\x0c'

def pyRstrip (cs : List Char) : List Char :=
  (cs.reverse.dropWhile isPySpace).reverse

/-- Lines 418-419: `if content: content = content.rstrip() + "\n"` —
non-empty content is normalised to end with exactly one newline; empty
content is written as-is. -/
def normalizeContent (cs : List Char) : List Char :=
  if cs.isEmpty then cs else pyRstrip cs ++ ['\n']

/-- The per-file banners and bodies of `dump_contents` (lines 402-423);
the flag tracks `i == 0` (no separating blank line before the first
banner). -/
def contentsBlocks : Bool → List (List (List Char) × List Char) → List Char
  | _, [] => []
  | isFirst, (d, content) :: rest =>
    (if isFirst then [] else ['\n']) ++ chars "📄 FILE " ++ pathString d ++ chars ":\n" ++
      normalizeContent content ++ contentsBlocks false rest

/-- The skipped-files footer block (lines 427-438). -/
def skippedFooter (skipped : List (List (List Char) × Int)) (size_kb : Nat) : List Char :=
  interChars (chars "\n")
    ([chars "\n" ++ ruleLine,
      chars "# Skipped " ++ natChars skipped.length ++ chars " file(s) larger than " ++
        natChars size_kb ++ chars " KB",
      ruleLine] ++
     skipped.map (fun e => chars "# - " ++ pathString e.1 ++ chars " (" ++
        intChars e.2 ++ chars " KB)") ++
     [[]])

/-- `dump_contents` (lines 387-441): preamble, banners with bodies, end
marker, and — only when files were skipped for size — the footer block
appended after the end marker. -/
def dump_contents (files : List (List (List Char) × List Char))
    (skipped : List (List (List Char) × Int)) (size_kb : Nat)
    (projName projPath : List Char) : List Char :=
  write_preamble projName projPath ++ contentsBlocks true files ++
    write_end_marker projPath ++
    (if skipped.isEmpty then [] else skippedFooter skipped size_kb)

/-- `dump_files` (lines 358-384). -/
def dump_files (files : List (List (List Char) × List (List Char)))
    (projName projPath : List Char) : List Char :=
  write_preamble projName projPath ++
    chars "📄 FILES (count=" ++ natChars files.length ++ chars ")\n" ++
    (files.map (fun f => pathString f.1 ++ chars "\n")).flatten ++
    write_end_marker projPath

/-- The nested-dict repository tree of `_build_repo_tree` (lines
265-320): the `__is_repo__` key becomes a boolean field, the remaining
keys an insertion-ordered association list. -/
inductive RTree where
  | mk (isRepo : Bool) (children : List (List Char × RTree))

def rtIsRepo : RTree → Bool
  | .mk r _ => r

def rtChildren : RTree → List (List Char × RTree)
  | .mk _ c => c

mutual
def rtInsert : List (List Char) → RTree → RTree
  | [], .mk _ cs => .mk true cs
  | p :: ps, .mk r cs => .mk r (rtInsertChild p ps cs)
termination_by path _ => (path.length, 0)
def rtInsertChild (p : List Char) (ps : List (List Char)) :
    List (List Char × RTree) → List (List Char × RTree)
  | [] => [(p, rtInsert ps (.mk false []))]
  | (q, sub) :: rest =>
    if q = p then (q, rtInsert ps sub) :: rest
    else (q, sub) :: rtInsertChild p ps rest
termination_by rest => (ps.length, rest.length + 1)
end

/-- `sorted(node.items())` over the children of a tree node. -/
def sortAssoc (cs : List (List Char × RTree)) : List (List Char × RTree) :=
  insSort (fun a b => keyLt a.1 b.1) cs

/-- Pad a line with spaces to 40 characters (`str.ljust(40)`). -/
def ljust40 (l : List Char) : List Char :=
  l ++ List.replicate (40 - l.length) ' '

/-- `render_tree` (lines 288-312), recursion bounded by `fuel` (the
number of tree nodes suffices: the recursion descends one level per
call). -/
def renderItems : Nat → List Char → List (List Char × RTree) → List (List Char)
  | _, _, [] => []
  | fuel, pre, (name, sub) :: rest =>
    let isLast := rest.isEmpty
    let connector := if isLast then chars "└─ " else chars "├─ "
    let isRepo := rtIsRepo sub
    let hasChildren := !(rtChildren sub).isEmpty
    let suffix0 := if hasChildren || (!isRepo && !hasChildren) then chars "/" else []
    let suffix1 := if isRepo && !hasChildren then chars "/" else suffix0
    let line := pre ++ connector ++ name ++ suffix1
    let line1 := if isRepo then ljust40 line ++ chars " ✓ repo" else line
    let childLines :=
      if hasChildren then
        match fuel with
        | 0 => []
        | fuel' + 1 =>
          renderItems fuel' (pre ++ (if isLast then chars "   " else chars "│  "))
            (sortAssoc (rtChildren sub))
      else []
    line1 :: childLines ++ renderItems fuel pre rest
termination_by fuel _ items => (fuel, items.length)

mutual
def fsizeR : RTree → Nat
  | .mk _ cs => 1 + fsizeRL cs
def fsizeRL : List (List Char × RTree) → Nat
  | [] => 0
  | (_, t) :: ts => fsizeR t + fsizeRL ts
end

/-- The tree-building loop of `_build_repo_tree` (lines 274-286): each
repository's relative path is inserted, the scan root itself appearing
as the single component `.`. -/
def buildTree : List (List (List Char)) → RTree → RTree
  | [], t => t
  | rel :: rest, t =>
    buildTree rest (rtInsert (if rel.isEmpty then [chars "."] else rel) t)

/-- `_build_repo_tree` (lines 265-320). -/
def build_repo_tree (repoRels : List (List (List Char))) :
    List (List Char) × Nat :=
  if repoRels = [[]] then
    ([chars ".                                        ✓ repo"], 1)
  else
    let t := buildTree repoRels (.mk false [])
    (chars "." :: renderItems (fsizeR t) [] (sortAssoc (rtChildren t)), repoRels.length)

/-- `dump_repos` (lines 323-355); `build_repo_tree repoRels` is the
`(tree_lines, count)` pair the source binds once. -/
def dump_repos (repoRels : List (List (List Char))) (depth : Nat)
    (projName projPath : List Char) : List Char :=
  write_preamble projName projPath ++
    chars "📦 REPOSITORIES (depth=" ++ natChars depth ++ chars ")\n\n" ++
    interChars (chars "\n") (build_repo_tree repoRels).1 ++ chars "\n" ++
    chars "\nFound: " ++ natChars (build_repo_tree repoRels).2 ++
    (if (build_repo_tree repoRels).2 = 1 then chars " repository"
     else chars " repositories") ++ chars "\n" ++
    write_end_marker projPath

/-! ### Remaining helper lemmas -/

theorem passes_isFile (c : CollectCfg) (f : FileEntry)
    (h : passes_filters c f = true) : f.isFile = true := by
  simp only [passes_filters, Bool.and_eq_true] at h
  exact h.1.1.1.1

theorem within_iff_size (c : CollectCfg) (f : FileEntry) (hf : f.isFile = true) :
    within_size f c.sizeKb = true ↔ ∃ s, f.statSize = some s ∧ s ≤ c.sizeKb * 1024 := by
  simp only [within_size, hf, Bool.true_and]
  cases hst : f.statSize with
  | none => simp
  | some n => simp

theorem dropWhile_head_not (p : Char → Bool) :
    ∀ (l : List Char) (a : Char), (l.dropWhile p).head? = some a → p a = false := by
  intro l
  induction l with
  | nil => intro a h; simp [List.dropWhile] at h
  | cons c cl ih =>
    intro a h
    rw [List.dropWhile_cons] at h
    by_cases hc : p c = true
    · rw [if_pos hc] at h
      exact ih a h
    · rw [if_neg hc] at h
      simp only [List.head?_cons, Option.some_inj] at h
      subst h
      exact Bool.not_eq_true _ |>.mp hc

theorem underEx_false_iff (rel : List (List Char)) :
    underEx rel = false ↔
      ¬(pathString rel = chars "excluded" ∨ chars "excluded/" <+: pathString rel) := by
  simp only [underEx, Bool.or_eq_false_iff, beq_eq_false_iff_ne, ne_eq]
  constructor
  · rintro ⟨h1, h2⟩ (h | h)
    · exact h1 h
    · rw [← List.isPrefixOf_iff_prefix] at h
      rw [h2] at h
      cases h
  · intro h
    refine ⟨fun he => h (Or.inl he), ?_⟩
    rcases Bool.eq_false_or_eq_true ((chars "excluded/").isPrefixOf (pathString rel)) with
      h' | h'
    · exact absurd (Or.inr (List.isPrefixOf_iff_prefix.mp h')) h
    · exact h'

/-! ### The claims -/

/-- C1: Traversal-level pruning.  For every directory tree and pattern
set containing `excluded/**`, repository discovery never enqueues any
directory whose path relative to the scan root is `excluded` or lies
under `excluded/`, and consequently no returned repository root has such
a relative path, however deeply nested. -/
theorem catp_c1_traversal_pruning (root : FSTree) (maxDepth : Option Nat)
    (only excl dirs : List (List Char)) (hmem : chars "excluded/**" ∈ excl) :
    (∀ rel ∈ (find_git_repo_roots root maxDepth only excl dirs).2,
        ¬(pathString rel = chars "excluded" ∨ chars "excluded/" <+: pathString rel)) ∧
    (∀ rel ∈ (find_git_repo_roots root maxDepth only excl dirs).1,
        ¬(pathString rel = chars "excluded" ∨ chars "excluded/" <+: pathString rel)) := by
  rcases find_git_repo_roots_underEx root maxDepth only excl dirs hmem with ⟨h2, h1⟩
  exact ⟨fun rel hrel => (underEx_false_iff rel).mp (h2 rel hrel),
    fun rel hrel => (underEx_false_iff rel).mp (h1 rel hrel)⟩

/-- The tree used to witness C1: a repository at the scan root, a deep
repository below `excluded/`, and a sibling repository `kept`. -/
def pruneTreeW : FSTree :=
  .node (chars "root") true
    [ .node (chars "excluded") false
        [ .node (chars "deep") false [ .node (chars "repo") true [] ] ],
      .node (chars "kept") true [] ]

theorem catp_c1_traversal_pruning_witness :
    chars "excluded/**" ∈ [chars "excluded/**"] ∧
    [chars "kept"] ∈ (find_git_repo_roots pruneTreeW (some 5) [] [chars "excluded/**"]
      GLOB_EXCLUDE_DIRS).1 ∧
    ¬(pathString [chars "kept"] = chars "excluded" ∨
        chars "excluded/" <+: pathString [chars "kept"]) := by
  refine ⟨by decide, by decide, ?_⟩
  exact (catp_c1_traversal_pruning pruneTreeW (some 5) [] [chars "excluded/**"]
    GLOB_EXCLUDE_DIRS (by decide)).2 [chars "kept"] (by decide)

/-- The sibling-repository tree of claim C4. -/
def sibTree : FSTree :=
  .node (chars "root") false
    [ .node (chars "backend") true [],
      .node (chars "backend-base") true [],
      .node (chars "frontend") true [],
      .node (chars "unrelated") true [] ]

/-- C4: repository-level filter composition.  Over sibling repositories
`{backend, backend-base, frontend, unrelated}`, discovery with only
patterns `["backend*", "frontend"]` returns exactly
`{backend, backend-base, frontend}` (OR accumulation), and additionally
excluding `backend-base` returns exactly `{backend, frontend}` (exclude
is subtractive over the only-selected set). -/
theorem catp_c4_filter_composition :
    (find_git_repo_roots sibTree (some 1) [chars "backend*", chars "frontend"] []
        GLOB_EXCLUDE_DIRS).1 =
      [[chars "backend"], [chars "backend-base"], [chars "frontend"]] ∧
    (find_git_repo_roots sibTree (some 1) [chars "backend*", chars "frontend"]
        [chars "backend-base"] GLOB_EXCLUDE_DIRS).1 =
      [[chars "backend"], [chars "frontend"]] := by
  constructor
  · decide
  · decide

/-- C5: for every directory path and literal subtree root `X`,
`should_exclude_subtree` on the single pattern `X/**` fires exactly when
the directory equals `X` or starts with the separator-bounded `X/`. -/
theorem catp_c5_subtree_pattern (X : List Char) (rel : List (List Char))
    (hX : plainPat X = true) :
    should_exclude_subtree rel [X ++ chars "/**"] = true ↔
      (pathString rel = X ∨ (X ++ ['/']) <+: pathString rel) :=
  should_exclude_subtree_dstar_iff X hX rel

theorem catp_c5_subtree_pattern_witness :
    plainPat (chars "clients") = true ∧
    (should_exclude_subtree [chars "clients", chars "acme"]
        [chars "clients" ++ chars "/**"] = true ↔
      (pathString [chars "clients", chars "acme"] = chars "clients" ∨
        (chars "clients" ++ ['/']) <+: pathString [chars "clients", chars "acme"])) :=
  ⟨by decide, catp_c5_subtree_pattern (chars "clients") [chars "clients", chars "acme"]
    (by decide)⟩

/-- C6 refutation: with a pattern set that contains `*.ext` together
with another pattern, `matches_path` can be true although no path
component ends with `.ext` — the claimed equivalence fails for such
supersets. -/
theorem catp_c6_counterexample :
    matches_path [chars "a-file"] [chars "*.ext", chars "a-file"] = true ∧
    ([chars "a-file"].any (fun part => (chars ".ext").isSuffixOf part)) = false := by
  constructor
  · decide
  · decide

/-- C6 amended: for the singleton pattern set `{*.ext}` with a plain
extension (no separator, no wildcard), `matches_path` is true exactly
when some path component ends with `.ext`. -/
theorem catp_c6_amended (ext : List Char) (he : plainSeg ext = true)
    (parts : List (List Char)) :
    matches_path parts [('*' :: '.' :: ext)] =
      parts.any (fun part => ('.' :: ext).isSuffixOf part) :=
  matches_path_bare_ext ext he parts

theorem catp_c6_amended_witness :
    plainSeg (chars "py") = true ∧
    matches_path [chars "src", chars "main.py"] [('*' :: '.' :: chars "py")] =
      [chars "src", chars "main.py"].any
        (fun part => ('.' :: chars "py").isSuffixOf part) :=
  ⟨by decide, catp_c6_amended (chars "py") (by decide) [chars "src", chars "main.py"]⟩

theorem eligWith_self (c : CollectCfg) (f : FileEntry)
    (hp : passes_filters c f = true) (hw : within_size f c.sizeKb = true) :
    eligWith c f.displayParts f = true := by
  simp [eligWith, hp, hw]

theorem kept_keys_mem_iff (c : CollectCfg) (rf : List (List FileEntry))
    (d : List (List Char)) :
    d ∈ (collect c rf).1.map Prod.fst ↔
      ∃ f ∈ rf.flatten, passes_filters c f = true ∧ f.displayParts = d ∧
        ∃ s, f.statSize = some s ∧ s ≤ c.sizeKb * 1024 := by
  constructor
  · intro hd
    rcases List.mem_map.mp hd with ⟨⟨d', a⟩, hmem, rfl⟩
    rcases (collect_kept_mem c rf d' a).mp hmem with ⟨g, hfind, _⟩
    have hg := List.find?_some hfind
    simp only [eligWith, Bool.and_eq_true, beq_iff_eq] at hg
    rcases hg with ⟨⟨hp, hw⟩, hdisp⟩
    refine ⟨g, List.mem_of_find?_eq_some hfind, hp, hdisp, ?_⟩
    exact (within_iff_size c g (passes_isFile c g hp)).mp hw
  · rintro ⟨f, hf, hp, rfl, s, hst, hle⟩
    have hw : within_size f c.sizeKb = true :=
      (within_iff_size c f (passes_isFile c f hp)).mpr ⟨s, hst, hle⟩
    have hsome : (rf.flatten.find? (eligWith c f.displayParts)).isSome :=
      List.find?_isSome.mpr ⟨f, hf, eligWith_self c f hp hw⟩
    rcases Option.isSome_iff_exists.mp hsome with ⟨g, hg⟩
    refine List.mem_map.mpr ⟨(f.displayParts, g.absParts), ?_, rfl⟩
    exact (collect_kept_mem c rf f.displayParts g.absParts).mpr ⟨g, hg, rfl⟩

/-- C2: the size gate.  A candidate that passed the directory-exclusion,
pattern-exclusion, scoping and inclusion filters is kept exactly when
its byte size is at most `size_kb * 1024` (inclusive boundary);
otherwise it is recorded in the skipped-large list with its byte size
floor-divided by 1024; and the collection result never depends on any
file's content. -/
theorem catp_c2_size_gate (c : CollectCfg) (rf : List (List FileEntry)) :
    (∀ f ∈ rf.flatten, passes_filters c f = true →
      ∀ s, f.statSize = some s →
        ((s ≤ c.sizeKb * 1024 → f.displayParts ∈ (collect c rf).1.map Prod.fst) ∧
         (¬s ≤ c.sizeKb * 1024 →
            (f.displayParts, ((s / 1024 : Nat) : Int)) ∈ (collect c rf).2))) ∧
    (∀ d, d ∈ (collect c rf).1.map Prod.fst ↔
      ∃ f ∈ rf.flatten, passes_filters c f = true ∧ f.displayParts = d ∧
        ∃ s, f.statSize = some s ∧ s ≤ c.sizeKb * 1024) ∧
    (∀ g : FileEntry → List Char,
      collect c (rf.map (List.map (setContent g))) = collect c rf) := by
  refine ⟨?_, kept_keys_mem_iff c rf, fun g => collect_setContent c g rf⟩
  intro f hf hp s hst
  constructor
  · intro hle
    exact (kept_keys_mem_iff c rf f.displayParts).mpr ⟨f, hf, hp, rfl, s, hst, hle⟩
  · intro hgt
    have hw : within_size f c.sizeKb = false := by
      rcases Bool.eq_false_or_eq_true (within_size f c.sizeKb) with h | h
      · rcases (within_iff_size c f (passes_isFile c f hp)).mp h with ⟨s', hst', hle'⟩
        rw [hst] at hst'
        injection hst' with hss
        exact absurd (hss ▸ hle') hgt
      · exact h
    refine (collect_skipped_mem c rf f.displayParts _).mpr ⟨f, hf, hp, hw, rfl, ?_⟩
    simp [skippedSize, hst]

/-- The configuration used by the concrete collection witnesses: the
built-in constants, a 400 KB ceiling, `*.py` as include set, and no
user-supplied scoping or pattern flags. -/
def cfgW : CollectCfg :=
  ⟨GLOB_EXCLUDE_DIRS, EXCLUDE_FILE_PATTERNS, [chars "*.py"], 400, [], [], [], []⟩

/-- A 500 KB (512000-byte) python file, as in end-to-end scenario C. -/
def fBig : FileEntry :=
  ⟨[chars "big.py"], [chars "r", chars "big.py"], true, some 512000, chars "x"⟩

theorem catp_c2_size_gate_witness :
    fBig ∈ [[fBig]].flatten ∧ passes_filters cfgW fBig = true ∧
    fBig.statSize = some 512000 ∧ ¬(512000 ≤ cfgW.sizeKb * 1024) ∧
    ([chars "big.py"], (500 : Int)) ∈ (collect cfgW [[fBig]]).2 := by
  refine ⟨by decide, by decide, by decide, by decide, ?_⟩
  exact ((catp_c2_size_gate cfgW [[fBig]]).1 fBig (by decide) (by decide) 512000
    (by decide)).2 (by decide)

/-- C3: the kept list has pairwise-distinct display paths, is sorted
ascending by the display path's portable forward-slash string form, and
each kept pair is exactly the first candidate, in pooled repository
order, that is eligible for its display path (first-seen wins, later
duplicates dropped). -/
theorem catp_c3_kept_ordering (c : CollectCfg) (rf : List (List FileEntry)) :
    ((collect c rf).1.map Prod.fst).Nodup ∧
    (collect c rf).1.Pairwise
      (fun a b => keyLt (pathString b.1) (pathString a.1) = false) ∧
    (∀ d a, (d, a) ∈ (collect c rf).1 ↔
      ∃ f, rf.flatten.find? (eligWith c d) = some f ∧ f.displayParts = d ∧
        f.absParts = a) := by
  refine ⟨collect_kept_nodup c rf, collect_kept_sorted c rf, ?_⟩
  intro d a
  rw [collect_kept_mem]
  constructor
  · rintro ⟨f, hfind, ha⟩
    have hp := List.find?_some hfind
    simp only [eligWith, Bool.and_eq_true, beq_iff_eq] at hp
    exact ⟨f, hfind, hp.2, ha⟩
  · rintro ⟨f, hfind, _, ha⟩
    exact ⟨f, hfind, ha⟩

theorem contains_false_iff (l : List (List Char)) (q : List Char) :
    l.contains q = false ↔ q ∉ l := by
  constructor
  · intro h hq
    have h' : List.elem q l = false := h
    rw [List.elem_iff.mpr hq] at h'
    cases h'
  · intro h
    rcases Bool.eq_false_or_eq_true (l.contains q) with h' | h'
    · have h'' : List.elem q l = true := h'
      exact absurd (List.elem_iff.mp h'') h
    · exact h'

theorem passes_not_excluded (c : CollectCfg) (g : FileEntry)
    (hg : passes_filters c g = true) :
    matches_path g.displayParts (activeExcludeOf c) = false := by
  simp only [passes_filters, Bool.and_eq_true, Bool.not_eq_true'] at hg
  exact hg.1.1.2

/-- C7: the active file-level exclude set is (built-in defaults minus
allow overrides) plus user excludes; a pattern in both the allow and the
exclude list stays in the active set (exclude wins ties); and any
candidate whose display path matches the active set is rejected — it
appears neither among the kept display paths nor in the skipped list. -/
theorem catp_c7_exclude_composition :
    (∀ (defaults allow user : List (List Char)) (p : List Char),
      (p ∈ active_exclude_patterns defaults allow user ↔
        ((p ∈ defaults ∧ p ∉ allow) ∨ p ∈ user)) ∧
      (p ∈ allow → p ∈ user → p ∈ active_exclude_patterns defaults allow user)) ∧
    (∀ (c : CollectCfg) (rf : List (List FileEntry)) (f : FileEntry),
      f ∈ rf.flatten → matches_path f.displayParts (activeExcludeOf c) = true →
        f.displayParts ∉ (collect c rf).1.map Prod.fst ∧
        ∀ k, (f.displayParts, k) ∉ (collect c rf).2) := by
  constructor
  · intro defaults allow user p
    have hmem : p ∈ active_exclude_patterns defaults allow user ↔
        ((p ∈ defaults ∧ p ∉ allow) ∨ p ∈ user) := by
      simp only [active_exclude_patterns, List.mem_append, List.mem_filter,
        Bool.not_eq_true']
      rw [contains_false_iff]
    exact ⟨hmem, fun _ hu => hmem.mpr (Or.inr hu)⟩
  · intro c rf f hf hmatch
    constructor
    · intro hd
      rcases (kept_keys_mem_iff c rf f.displayParts).mp hd with ⟨g, _, hp, hdisp, _⟩
      have := passes_not_excluded c g hp
      rw [hdisp, hmatch] at this
      cases this
    · intro k hk
      rcases (collect_skipped_mem c rf f.displayParts k).mp hk with
        ⟨g, _, hp, _, hdisp, _⟩
      have := passes_not_excluded c g hp
      rw [hdisp, hmatch] at this
      cases this

/-- A PNG file: matched by the built-in excludes. -/
def fPng : FileEntry :=
  ⟨[chars "img.png"], [chars "r", chars "img.png"], true, some 10, chars "x"⟩

theorem catp_c7_exclude_composition_witness :
    (chars "*.png" ∈ [chars "*.png"] ∧ chars "*.png" ∈ [chars "*.png"] ∧
      chars "*.png" ∈ active_exclude_patterns [chars "*.png"] [chars "*.png"]
        [chars "*.png"]) ∧
    (fPng ∈ [[fPng]].flatten ∧
      matches_path fPng.displayParts (activeExcludeOf cfgW) = true ∧
      fPng.displayParts ∉ (collect cfgW [[fPng]]).1.map Prod.fst ∧
      (fPng.displayParts, (0 : Int)) ∉ (collect cfgW [[fPng]]).2) := by
  have h1 := (catp_c7_exclude_composition.1 [chars "*.png"] [chars "*.png"]
    [chars "*.png"] (chars "*.png")).2 (by decide) (by decide)
  have h2 := catp_c7_exclude_composition.2 cfgW [[fPng]] fPng (by decide) (by decide)
  exact ⟨⟨by decide, by decide, h1⟩, by decide, by decide, h2.1, h2.2 0⟩

/-- C10: a candidate whose size check fails with an `OSError` after
passing every pattern filter is treated as oversized — never placed in
the kept set on its own account (any kept entry under its display path
stems from a successfully-statted candidate) — and is recorded in the
skipped-large list with size `-1`, the value used when the re-stat in
the skipped branch also fails. -/
theorem catp_c10_stat_failure (c : CollectCfg) (rf : List (List FileEntry))
    (f : FileEntry) (hf : f ∈ rf.flatten) (hp : passes_filters c f = true)
    (hst : f.statSize = none) :
    within_size f c.sizeKb = false ∧
    (f.displayParts, (-1 : Int)) ∈ (collect c rf).2 ∧
    (∀ a, (f.displayParts, a) ∈ (collect c rf).1 →
      ∃ g ∈ rf.flatten, passes_filters c g = true ∧
        g.displayParts = f.displayParts ∧
        ∃ s, g.statSize = some s ∧ s ≤ c.sizeKb * 1024) := by
  have hw : within_size f c.sizeKb = false := by
    simp [within_size, hst]
  refine ⟨hw, ?_, ?_⟩
  · exact (collect_skipped_mem c rf f.displayParts _).mpr
      ⟨f, hf, hp, hw, rfl, by simp [skippedSize, hst]⟩
  · intro a hmem
    have hd : f.displayParts ∈ (collect c rf).1.map Prod.fst :=
      List.mem_map.mpr ⟨(f.displayParts, a), hmem, rfl⟩
    exact (kept_keys_mem_iff c rf f.displayParts).mp hd

/-- A python file whose stat raises `OSError`. -/
def fGone : FileEntry :=
  ⟨[chars "gone.py"], [chars "r", chars "gone.py"], true, none, chars "x"⟩

theorem catp_c10_stat_failure_witness :
    fGone ∈ [[fGone]].flatten ∧ passes_filters cfgW fGone = true ∧
    fGone.statSize = none ∧
    ([chars "gone.py"], (-1 : Int)) ∈ (collect cfgW [[fGone]]).2 := by
  refine ⟨by decide, by decide, by decide, ?_⟩
  exact (catp_c10_stat_failure cfgW [[fGone]] fGone (by decide) (by decide) rfl).2.1

theorem suffix_append_left (x y l : List Char) (h : l <:+ y) : l <:+ x ++ y :=
  h.trans (List.suffix_append x y)

/-- C8 refutation: a CONTENTS run with a skipped file does not end with
the end-marker line — the footer block is appended after it. -/
theorem catp_c8_counterexample :
    ((chars "END /p\n").isSuffixOf
      (dump_contents [] [([chars "large.bin"], 1024)] 400 (chars "p") (chars "/p")))
      = false ∧
    ((skippedFooter [([chars "large.bin"], 1024)] 400).isSuffixOf
      (dump_contents [] [([chars "large.bin"], 1024)] 400 (chars "p") (chars "/p")))
      = true := by
  constructor
  · decide
  · decide

/-- C8 amended: every artifact begins with the preamble; the REPOS and
FILES artifacts, and a CONTENTS artifact with no skipped files, end with
the end marker; a CONTENTS artifact with skipped files consists of the
end-marker-terminated body followed by the footer block, which ends the
artifact. -/
theorem catp_c8_amended
    (rels : List (List (List Char))) (depth : Nat)
    (filesF : List (List (List Char) × List (List Char)))
    (filesC : List (List (List Char) × List Char))
    (skipped : List (List (List Char) × Int)) (kb : Nat)
    (n p : List Char) :
    (write_preamble n p <+: dump_repos rels depth n p) ∧
    (write_preamble n p <+: dump_files filesF n p) ∧
    (write_preamble n p <+: dump_contents filesC skipped kb n p) ∧
    (write_end_marker p <:+ dump_repos rels depth n p) ∧
    (write_end_marker p <:+ dump_files filesF n p) ∧
    (skipped = [] → write_end_marker p <:+ dump_contents filesC skipped kb n p) ∧
    (skipped ≠ [] →
      dump_contents filesC skipped kb n p =
        (write_preamble n p ++ contentsBlocks true filesC ++ write_end_marker p) ++
          skippedFooter skipped kb ∧
      skippedFooter skipped kb <:+ dump_contents filesC skipped kb n p) := by
  refine ⟨?_, ?_, ?_, ?_, ?_, ?_, ?_⟩
  · simp only [dump_repos, List.append_assoc]
    exact List.prefix_append _ _
  · simp only [dump_files, List.append_assoc]
    exact List.prefix_append _ _
  · simp only [dump_contents, List.append_assoc]
    exact List.prefix_append _ _
  · simp only [dump_repos]
    exact List.suffix_append _ _
  · simp only [dump_files]
    exact List.suffix_append _ _
  · rintro rfl
    simp only [dump_contents, List.isEmpty_nil, if_true, List.append_nil]
    exact List.suffix_append _ _
  · intro hsk
    have hempty : skipped.isEmpty = false := by
      cases skipped with
      | nil => exact absurd rfl hsk
      | cons a l => rfl
    have heq : dump_contents filesC skipped kb n p =
        (write_preamble n p ++ contentsBlocks true filesC ++ write_end_marker p) ++
          skippedFooter skipped kb := by
      simp only [dump_contents]
      rw [if_neg (by rw [hempty]; simp)]
    refine ⟨heq, ?_⟩
    rw [heq]
    exact List.suffix_append _ _

theorem catp_c8_amended_witness :
    (([([chars "large.bin"], (1024 : Int))] : List (List (List Char) × Int)) ≠ []) ∧
    (write_end_marker (chars "/p") <:+ dump_contents [] [] 400 (chars "p") (chars "/p")) ∧
    (skippedFooter [([chars "large.bin"], 1024)] 400 <:+
      dump_contents [] [([chars "large.bin"], 1024)] 400 (chars "p") (chars "/p")) := by
  refine ⟨List.cons_ne_nil _ _, ?_, ?_⟩
  · exact (catp_c8_amended [] 0 [] [] [] 400 (chars "p") (chars "/p")).2.2.2.2.2.1 rfl
  · exact ((catp_c8_amended [] 0 [] [] [([chars "large.bin"], 1024)] 400 (chars "p")
      (chars "/p")).2.2.2.2.2.2 (List.cons_ne_nil _ _)).2

set_option maxRecDepth 4000 in
/-- C9 refutation: for a kept file whose raw content is empty the body
written after the banner is empty — it does not end with a newline; the
concrete CONTENTS artifact shows the banner immediately followed by the
end marker. -/
theorem catp_c9_counterexample :
    normalizeContent (chars "") = chars "" ∧
    ¬((normalizeContent (chars "")).getLast? = some '\n') ∧
    dump_contents [([chars "empty.py"], chars "")] [] 400 (chars "p") (chars "/p") =
      write_preamble (chars "p") (chars "/p") ++ chars "📄 FILE empty.py:\n" ++
        write_end_marker (chars "/p") := by
  refine ⟨by decide, by decide, by decide⟩

/-- C9 amended: for every kept file with non-empty raw content the body
written after its banner ends with exactly one trailing newline
(trailing whitespace removed first), including whitespace-only content;
empty content produces an empty body. -/
theorem catp_c9_amended (cs : List Char) (h : ¬cs = []) :
    (normalizeContent cs).getLast? = some '\n' ∧
    ¬((normalizeContent cs).dropLast.getLast? = some '\n') := by
  have hne : cs.isEmpty = false := by
    cases cs with
    | nil => exact absurd rfl h
    | cons a l => rfl
  simp only [normalizeContent]
  rw [if_neg (by rw [hne]; simp)]
  constructor
  · rw [List.getLast?_concat]
  · rw [List.dropLast_concat]
    intro hcon
    rw [pyRstrip, List.getLast?_reverse] at hcon
    have hnl := dropWhile_head_not isPySpace cs.reverse '\n' hcon
    rw [show isPySpace '\n' = true from rfl] at hnl
    cases hnl

theorem catp_c9_amended_witness :
    ¬(chars "x  " = []) ∧
    (normalizeContent (chars "x  ")).getLast? = some '\n' ∧
    ¬((normalizeContent (chars "x  ")).dropLast.getLast? = some '\n') := by
  have h := catp_c9_amended (chars "x  ") (by decide)
  exact ⟨by decide, h.1, h.2⟩
